import Mathlib

/-!
Verification of the Gylte glyph-picker backend (`app.go`).

Strings are modelled as `List Char` (the rune sequence of a Go string).
Go byte lengths (`len(s)`) are modelled by `utf8Len`, the sum of the UTF-8
sizes of the runes.  `strings.ToLower` is modelled on the ASCII range
(`goToLower`), where Go's Unicode case table agrees with it; every concrete
input appearing below is ASCII.  Scores are Go `int` values, modelled as `ℤ`
(the spec fixes plain integer semantics with no overflow at realistic
lengths).
-/

namespace Gylte

open scoped List

/-- ASCII fragment of Go's `unicode.ToLower`, applied rune-wise as in
`strings.ToLower`. -/
def goToLower (c : Char) : Char :=
  if 'A' ≤ c ∧ c ≤ 'Z' then Char.ofNat (c.toNat + 32) else c

/-- `strings.ToLower`: case-fold every rune. -/
def lowerL (s : List Char) : List Char := s.map goToLower

/-- Go `len` on a string: total UTF-8 byte size of its runes. -/
def utf8Len (s : List Char) : Nat := (s.map Char.utf8Size).sum

/-- Go's `strings.HasPrefix t p`: `p` is a leading segment of `t`. -/
def startsWith : List Char → List Char → Bool
  | _, [] => true
  | [], _ :: _ => false
  | c :: t, d :: p => c = d && startsWith t p

/-- Go's `strings.Contains t p`: `p` occurs contiguously inside `t`. -/
def containsL : List Char → List Char → Bool
  | [], p => startsWith [] p
  | c :: t, p => startsWith (c :: t) p || containsL t p

/-- The word-boundary bonus of `fuzzyMatch`'s scan loop (`app.go:87-90`):
10 when the matched character is at position 0 (`prev = none`) or right
after a separator `' '`, `'-'`, `'_'`. -/
def boundaryBonus (prev : Option Char) : Int :=
  if prev = none ∨ prev = some ' ' ∨ prev = some '-' ∨ prev = some '_' then 10 else 0

/-- The scan loop of `fuzzyMatch` (`app.go:78-94`): walk `text`, greedily
consuming `patRem` (the unmatched tail of the pattern); `prev` is the
previous text rune (`none` at position 0), `consec` the current run of
consecutive matches, `score` the accumulator.  Returns the final score and
the unconsumed pattern tail. -/
def fuzzyLoop : List Char → List Char → Option Char → Nat → Int → Int × List Char
  | [], patRem, _, _, score => (score, patRem)
  | c :: rest, [], _, _, score => fuzzyLoop rest [] (some c) 0 score
  | c :: rest, pc :: p, prev, consec, score =>
    if c = pc then
      fuzzyLoop rest p (some c) (consec + 1)
        (score + 2 * (consec + 1) + boundaryBonus prev)
    else
      fuzzyLoop rest (pc :: p) (some c) 0 score

/-- `fuzzyMatch` (`app.go:50-104`): case-fold both sides; empty pattern
matches everything with score 0; a contained pattern takes the substring
branch (base 1000, +500 prefix bonus, minus the byte-length gap); otherwise
the greedy scan must consume the whole pattern, scoring run and boundary
bonuses minus the byte-length gap; else no match, score 0. -/
def fuzzyMatch (pattern text : List Char) : Int × Bool :=
  let p := lowerL pattern
  let t := lowerL text
  if p = [] then (0, true)
  else if containsL t p then
    (1000 + (if startsWith t p then 500 else 0) + ((utf8Len p : Int) - utf8Len t), true)
  else
    let r := fuzzyLoop t p none 0 0
    if r.2 = [] then (r.1 + ((utf8Len p : Int) - utf8Len t), true)
    else (0, false)

/-- Rune list of a string literal (all literals below are ASCII). -/
def cl (s : String) : List Char := s.data

/-- Go's `unicode.IsSpace`: the White_Space code points. -/
def goIsSpace (c : Char) : Bool :=
  decide ((9 ≤ c.toNat ∧ c.toNat ≤ 13) ∨ c.toNat = 32 ∨ c.toNat = 0x85 ∨
    c.toNat = 0xA0 ∨ c.toNat = 0x1680 ∨ (0x2000 ≤ c.toNat ∧ c.toNat ≤ 0x200A) ∨
    c.toNat = 0x2028 ∨ c.toNat = 0x2029 ∨ c.toNat = 0x202F ∨ c.toNat = 0x205F ∨
    c.toNat = 0x3000)

/-- Go's `strings.TrimSpace`: drop White_Space runes from both ends. -/
def goTrimSpace (s : List Char) : List Char :=
  ((s.dropWhile goIsSpace).reverse.dropWhile goIsSpace).reverse

/-- The `strings.NewReplacer("-"," ","_"," ","."," ","/"," ")` of
`normalizeString` (`app.go:223-229`), applied rune-wise. -/
def replaceSeps (c : Char) : Char :=
  if c = '-' ∨ c = '_' ∨ c = '.' ∨ c = '/' then ' ' else c

/-- Worker for `goFields`: `acc` is the current word, reversed. -/
def goFieldsAux : List Char → List Char → List (List Char)
  | [], acc => if acc = [] then [] else [acc.reverse]
  | c :: rest, acc =>
    if goIsSpace c then
      if acc = [] then goFieldsAux rest [] else acc.reverse :: goFieldsAux rest []
    else goFieldsAux rest (c :: acc)

/-- Go's `strings.Fields`: maximal runs of non-White_Space runes. -/
def goFields (s : List Char) : List (List Char) := goFieldsAux s []

/-- `normalizeString` (`app.go:218-234`): lower-case the trimmed string, turn
the separators `- _ . /` into spaces, and re-join the fields with single
spaces. -/
def normalizeString (s : List Char) : List Char :=
  List.intercalate [' '] (goFields ((lowerL (goTrimSpace s)).map replaceSeps))

/-- A glyph record: `name` and the display `glyph` payload (`app.go:175-178`). -/
structure Glyph where
  name : List Char
  glyph : List Char
deriving DecidableEq, Repr

/-- The duplicate-removal loop shared by `initializeSearchIndex`
(`app.go:254-263`) and `LoadGlyphsFromJSON` (`app.go:489-498`): `seen` is the
set of names already kept. -/
def dedupGlyphs (seen : List (List Char)) : List Glyph → List Glyph
  | [] => []
  | g :: rest =>
    if g.name ∈ seen then dedupGlyphs seen rest
    else g :: dedupGlyphs (g.name :: seen) rest

/-- Spec-side description of the working set: the subsequence of the input
keeping the first occurrence of each name. -/
def firstOccurrences : List Glyph → List Glyph
  | [] => []
  | g :: rest => g :: firstOccurrences (rest.filter (fun h => h.name ≠ g.name))
termination_by l => l.length
decreasing_by
  simp only [List.length_cons]
  exact Nat.lt_succ_of_le (List.length_filter_le _ _)

/-- `TrieNode` (`app.go:189-192`): the rune-keyed child map is modelled as an
association list (keys are unique by construction; Go's map iteration order
is never observed by the functions below). -/
inductive Trie where
  | mk (children : List (Char × Trie)) (indices : List Nat)

/-- Child map of a trie node. -/
def Trie.children : Trie → List (Char × Trie)
  | .mk cs _ => cs

/-- Index list of a trie node. -/
def Trie.indices : Trie → List Nat
  | .mk _ is => is

/-- The fresh node `&TrieNode{children: make(map[rune]*TrieNode)}`. -/
def emptyTrie : Trie := .mk [] []

/-- Go map lookup `node.children[char]` (first matching key). -/
def lookupChild : List (Char × Trie) → Char → Option Trie
  | [], _ => none
  | (d, u) :: rest, c => if d = c then some u else lookupChild rest c

/-- Go map assignment `node.children[char] = t`: replace the entry for the
key, or append a new one. -/
def setChild : List (Char × Trie) → Char → Trie → List (Char × Trie)
  | [], c, t => [(c, t)]
  | (d, u) :: rest, c, t =>
    if d = c then (c, t) :: rest else (d, u) :: setChild rest c t

/-- The duplicate-guarded index append of `addToTrie` (`app.go:299-309`). -/
def addIdx (is : List Nat) (i : Nat) : List Nat :=
  if i ∈ is then is else is ++ [i]

/-- The index-recording step of `addToTrie` on the node just entered. -/
def bump : Trie → Nat → Trie
  | .mk cs is, i => .mk cs (addIdx is i)

/-- `addToTrie` (`app.go:290-311`): walk `s`, creating missing children, and
record `i` at every node entered (never at the root). -/
def insertTrie : Trie → List Char → Nat → Trie
  | t, [], _ => t
  | .mk cs is, c :: rest, i =>
    .mk (setChild cs c (insertTrie (bump ((lookupChild cs c).getD emptyTrie) i) rest i)) is

/-- No node of the trie holds a duplicate glyph index. -/
inductive TrieNodup : Trie → Prop where
  | mk (cs : List (Char × Trie)) (is : List Nat) :
      is.Nodup → (∀ p ∈ cs, TrieNodup p.2) → TrieNodup (.mk cs is)

/-- `SearchIndex` (`app.go:181-186`): the normalized-name map is modelled as
an association list with Go's append-to-entry update. -/
structure SearchIndex where
  glyphs : List Glyph
  normalizedMap : List (List Char × List Nat)
  prefixTree : Trie

/-- Go `a.searchIndex.normalizedMap[n] = append(..., i)`. -/
def mapAppend : List (List Char × List Nat) → List Char → Nat → List (List Char × List Nat)
  | [], k, i => [(k, [i])]
  | (k', v) :: rest, k, i =>
    if k' = k then (k', v ++ [i]) :: rest else (k', v) :: mapAppend rest k i

/-- Go map lookup with the `exists` flag folded into `Option`. -/
def mapFind : List (List Char × List Nat) → List Char → Option (List Nat)
  | [], _ => none
  | (k', v) :: rest, k => if k' = k then some v else mapFind rest k

/-- Per-glyph indexing step of `initializeSearchIndex` (`app.go:268-284`) and
`LoadGlyphsFromJSON` (`app.go:503-514`): record the normalized name in the
map and trie, then each constituent word of length > 1 in the trie. -/
def indexStep (st : List (List Char × List Nat) × Trie) (ig : Nat × Glyph) :
    List (List Char × List Nat) × Trie :=
  let n := normalizeString ig.2.name
  let mp := mapAppend st.1 n ig.1
  let tr := insertTrie st.2 n ig.1
  let tr := (goFields n).foldl
    (fun t w => if 1 < utf8Len w then insertTrie t w ig.1 else t) tr
  (mp, tr)

/-- Index (re)construction from a raw glyph list: the pure content of
`initializeSearchIndex` (`app.go:237-287`) and `LoadGlyphsFromJSON`
(`app.go:475-518`) after JSON decoding. -/
def buildIndex (raw : List Glyph) : SearchIndex :=
  let uniq := dedupGlyphs [] raw
  let st := uniq.enum.foldl indexStep ([], emptyTrie)
  ⟨uniq, st.1, st.2⟩

/-- `searchByPrefix` (`app.go:360-372`): walk the trie along the query;
a missing child yields `nil`. -/
def searchTrie : Trie → List Char → List Nat
  | t, [] => t.indices
  | t, c :: rest =>
    match lookupChild t.children c with
    | none => []
    | some ch => searchTrie ch rest

/-- `searchBySubstring` (`app.go:375-386`). -/
def searchBySubstring (glyphs : List Glyph) (q : List Char) : List Nat :=
  glyphs.enum.filterMap
    (fun ig => if containsL (normalizeString ig.2.name) q then some ig.1 else none)

/-- `removeDuplicateIndices` (`app.go:389-401`). -/
def removeDupIdx (seen : List Nat) : List Nat → List Nat
  | [] => []
  | i :: rest =>
    if i ∈ seen then removeDupIdx seen rest
    else i :: removeDupIdx (i :: seen) rest

/-- `calculateRelevanceScore` (`app.go:431-467`), sequentially accumulating
the exact, prefix, per-word, substring and short-name bonuses. -/
def calculateRelevanceScore (name q : List Char) : Int :=
  let normalized := normalizeString name
  let score : Int := if normalized = q then 1000 else 0
  let score := score + (if startsWith normalized q then 500 else 0)
  let score := (goFields normalized).foldl
    (fun s w => s + (if startsWith w q then 250 else 0) +
      (if containsL w q then 100 else 0)) score
  let score := score + (if containsL normalized q then 50 else 0)
  if utf8Len normalized < 20 ∧ 0 < score then score + 25 else score

/-- Deterministic model of `sort.Slice(xs, key i > key j)`: insertion sort,
descending by key.  (Go's `sort.Slice` is deterministic but documented as
unstable; no theorem below depends on the tie order of a nonempty sort, see
the discussion at `C5`.) -/
def insertDesc (key : α → Int) (x : α) : List α → List α
  | [] => [x]
  | y :: ys => if key y < key x then x :: y :: ys else y :: insertDesc key x ys

/-- Descending sort by key, built from `insertDesc`. -/
def sortDesc (key : α → Int) : List α → List α
  | [] => []
  | x :: xs => insertDesc key x (sortDesc key xs)

/-- `sortByRelevance` (`app.go:404-428`). -/
def sortByRelevance (idx : SearchIndex) (indices : List Nat) (q : List Char) :
    List Nat :=
  let scored := indices.map
    (fun i => (i, calculateRelevanceScore ((idx.glyphs.getD i ⟨[], []⟩).name) q))
  (sortDesc Prod.snd scored).map Prod.fst

/-- `SearchGlyphs` (`app.go:314-357`): empty/whitespace query short-circuits
to the whole working set; otherwise merge the exact-map, trie and (when the
merged hit count is below 10) substring strategies, deduplicate, rank, and
project back to glyphs. -/
def searchGlyphs (idx : SearchIndex) (query : List Char) : List Glyph :=
  if goTrimSpace query = [] then idx.glyphs
  else
    let nq := normalizeString query
    if nq = [] then idx.glyphs
    else
      let m1 := (mapFind idx.normalizedMap nq).getD []
      let m := m1 ++ searchTrie idx.prefixTree nq
      let m := if m.length < 10 then m ++ searchBySubstring idx.glyphs nq else m
      let u := removeDupIdx [] m
      (sortByRelevance idx u nq).map (fun i => idx.glyphs.getD i ⟨[], []⟩)

/-- The in-memory part of `GetGlyphs` (`app.go:107-152`): a whitespace-only
term returns the candidate list untouched; otherwise keep the fuzzy matches
and sort them by score descending. -/
def getGlyphs (allGlyphs : List Glyph) (searchTerm : List Char) : List Glyph :=
  if goTrimSpace searchTerm = [] then allGlyphs
  else
    let ms := allGlyphs.filterMap (fun g =>
      let r := fuzzyMatch searchTerm g.name
      if r.2 then some (g, r.1) else none)
    (sortDesc Prod.snd ms).map Prod.fst

/-! ### Helper lemmas -/

theorem startsWith_refl (t : List Char) : startsWith t t = true := by
  induction t with
  | nil => rfl
  | cons c t ih => simp [startsWith, ih]

theorem containsL_refl (t : List Char) : containsL t t = true := by
  cases t with
  | nil => rfl
  | cons c t => simp [containsL, startsWith_refl]

theorem sublist_of_startsWith : ∀ {t p : List Char}, startsWith t p = true → p <+ t := by
  intro t
  induction t with
  | nil =>
    intro p h
    cases p with
    | nil => exact List.Sublist.refl _
    | cons d p => simp [startsWith] at h
  | cons c t ih =>
    intro p h
    cases p with
    | nil => exact List.nil_sublist _
    | cons d p =>
      simp only [startsWith, Bool.and_eq_true, decide_eq_true_eq] at h
      rcases h with ⟨rfl, h⟩
      exact List.cons_sublist_cons.mpr (ih h)

theorem sublist_of_containsL : ∀ {t p : List Char}, containsL t p = true → p <+ t := by
  intro t
  induction t with
  | nil => exact fun h => sublist_of_startsWith h
  | cons c t ih =>
    intro p h
    simp only [containsL, Bool.or_eq_true] at h
    rcases h with h | h
    · exact sublist_of_startsWith h
    · exact (ih h).cons c

theorem utf8Len_cons (c : Char) (l : List Char) :
    utf8Len (c :: l) = c.utf8Size + utf8Len l := by
  simp [utf8Len]

theorem utf8Len_le_of_sublist {p t : List Char} (h : p <+ t) :
    utf8Len p ≤ utf8Len t := by
  induction h with
  | slnil => exact Nat.le_refl _
  | cons a h ih =>
    rw [utf8Len_cons]
    omega
  | cons₂ a h ih =>
    rw [utf8Len_cons, utf8Len_cons]
    omega

theorem lowerL_eq_nil_iff (s : List Char) : lowerL s = [] ↔ s = [] := by
  simp [lowerL]

/-- The greedy scan consumes the whole pattern exactly when the pattern is an
ordered subsequence of the text. -/
theorem fuzzyLoop_done_iff :
    ∀ (t p : List Char) (prev : Option Char) (c : Nat) (s : Int),
      (fuzzyLoop t p prev c s).2 = [] ↔ p <+ t := by
  intro t
  induction t with
  | nil =>
    intro p prev c s
    simp [fuzzyLoop, List.sublist_nil]
  | cons x t ih =>
    intro p prev c s
    cases p with
    | nil =>
      simp only [fuzzyLoop, ih]
      simp [List.nil_sublist]
    | cons pc p =>
      by_cases hx : x = pc
      · subst hx
        simp [fuzzyLoop, ih, List.cons_sublist_cons]
      · have hx' : ¬ (x = pc) := hx
        simp only [fuzzyLoop, if_neg hx', ih]
        constructor
        · intro h
          exact h.cons x
        · intro h
          cases h with
          | cons _ h => exact h
          | cons₂ _ h => exact absurd rfl hx'


theorem boundaryBonus_nonneg (prev : Option Char) : 0 ≤ boundaryBonus prev := by
  unfold boundaryBonus
  split <;> norm_num

theorem boundaryBonus_le (prev : Option Char) : boundaryBonus prev ≤ 10 := by
  unfold boundaryBonus
  split <;> norm_num

/-- Accumulated-score bound for the scan loop: starting from run length `c`,
consuming at most the remaining pattern, the score grows by at most
`(c+n)(c+n+1) - c(c+1) + 10n` where `n` is the remaining pattern length. -/
theorem fuzzyLoop_fst_le :
    ∀ (t p : List Char) (prev : Option Char) (c : Nat) (s : Int),
      (fuzzyLoop t p prev c s).1 ≤
        s + ((c : Int) + p.length) * ((c : Int) + p.length + 1)
          - (c : Int) * ((c : Int) + 1) + 10 * p.length := by
  intro t
  induction t with
  | nil =>
    intro p prev c s
    show s ≤ _
    have h0 : (0 : Int) ≤ (c : Int) := Int.natCast_nonneg c
    have h1 : (0 : Int) ≤ (p.length : Int) := Int.natCast_nonneg _
    nlinarith
  | cons x t ih =>
    intro p prev c s
    cases p with
    | nil =>
      have := ih [] (some x) 0 s
      simp only [List.length_nil] at this ⊢
      show (fuzzyLoop t [] (some x) 0 s).1 ≤ _
      have h0 : (0 : Int) ≤ (c : Int) := Int.natCast_nonneg c
      push_cast at this ⊢
      nlinarith
    | cons pc p =>
      by_cases hx : x = pc
      · subst hx
        simp only [fuzzyLoop, if_true]
        have := ih p (some x) (c + 1) (s + 2 * ((c : Int) + 1) + boundaryBonus prev)
        have hb := boundaryBonus_le prev
        simp only [List.length_cons] at this ⊢
        push_cast at this ⊢
        nlinarith
      · simp only [fuzzyLoop]
        rw [if_neg hx]
        have := ih (pc :: p) (some x) 0 s
        simp only [List.length_cons] at this ⊢
        push_cast at this ⊢
        have h0 : (0 : Int) ≤ (c : Int) := Int.natCast_nonneg c
        nlinarith

/-- The exact self-match: score 1500 (0 for the empty name). -/
theorem fuzzyMatch_self (name : List Char) :
    fuzzyMatch name name = (if lowerL name = [] then 0 else 1500, true) := by
  by_cases h : lowerL name = []
  · simp [fuzzyMatch, h]
  · simp [fuzzyMatch, h, containsL_refl, startsWith_refl]

/-- The fuzzy-branch score is at most `n² + 11n` for a pattern of `n` runes
(before the length penalty, which only decreases it). -/
theorem fuzzyLoop_start_le (t p : List Char) :
    (fuzzyLoop t p none 0 0).1 ≤
      (p.length : Int) * (p.length + 1) + 10 * p.length := by
  have := fuzzyLoop_fst_le t p none 0 0
  push_cast at this ⊢
  nlinarith [this]

/-- Any match score of a query of at most 33 case-folded runes is at most
1500, the exact-match score (the fuzzy path is bounded by n² + 11n ≤ 1452
and the substring path by 1500). -/
theorem fuzzyMatch_fst_le (q t' : List Char) (h33 : (lowerL q).length ≤ 33) :
    (fuzzyMatch q t').1 ≤ 1500 := by
  have hsc := fuzzyLoop_start_le (lowerL t') (lowerL q)
  have h33' : ((lowerL q).length : Int) ≤ 33 := by exact_mod_cast h33
  have hn0 : (0 : Int) ≤ ((lowerL q).length : Int) := Int.natCast_nonneg _
  unfold fuzzyMatch
  dsimp only
  split_ifs with h1 h2 hsw hr
  · norm_num
  · have hle' : ((utf8Len (lowerL q) : Int)) ≤ (utf8Len (lowerL t') : Int) := by
      exact_mod_cast utf8Len_le_of_sublist (sublist_of_containsL h2)
    simp only [Prod.fst]
    linarith
  · have hle' : ((utf8Len (lowerL q) : Int)) ≤ (utf8Len (lowerL t') : Int) := by
      exact_mod_cast utf8Len_le_of_sublist (sublist_of_containsL h2)
    simp only [Prod.fst]
    linarith
  · have hsub : lowerL q <+ lowerL t' :=
      (fuzzyLoop_done_iff (lowerL t') (lowerL q) none 0 0).mp hr
    have hle' : ((utf8Len (lowerL q) : Int)) ≤ (utf8Len (lowerL t') : Int) := by
      exact_mod_cast utf8Len_le_of_sublist hsub
    simp only [Prod.fst]
    nlinarith
  · norm_num

/-- Fuzzy-branch value of `fuzzyMatch`. -/
theorem fuzzyMatch_fuzzy_eq (q t : List Char) (hq : lowerL q ≠ [])
    (hc : containsL (lowerL t) (lowerL q) = false) :
    fuzzyMatch q t =
      if (fuzzyLoop (lowerL t) (lowerL q) none 0 0).2 = [] then
        ((fuzzyLoop (lowerL t) (lowerL q) none 0 0).1 +
          ((utf8Len (lowerL q) : Int) - utf8Len (lowerL t)), true)
      else (0, false) := by
  unfold fuzzyMatch
  dsimp only
  rw [if_neg hq, if_neg (by simp [hc])]

/-- The seen-set dedup loop computes the keep-first-occurrence subsequence of
the part of the input whose names are not yet seen. -/
theorem dedupGlyphs_eq (l : List Glyph) :
    ∀ seen, dedupGlyphs seen l =
      firstOccurrences (l.filter (fun g => g.name ∉ seen)) := by
  induction l with
  | nil => intro seen; simp [dedupGlyphs, firstOccurrences]
  | cons g rest ih =>
    intro seen
    by_cases h : g.name ∈ seen
    · simp only [dedupGlyphs, if_pos h]
      rw [ih]
      congr 1
      simp [List.filter_cons, h]
    · simp only [dedupGlyphs, if_neg h]
      rw [ih (g.name :: seen)]
      have hcons : (g :: rest).filter (fun x => x.name ∉ seen) =
          g :: rest.filter (fun x => x.name ∉ seen) := by
        simp [List.filter_cons, h]
      rw [hcons, firstOccurrences]
      congr 1
      rw [List.filter_filter]
      congr 1
      apply List.filter_congr
      intro a _
      by_cases h1 : a.name = g.name <;> by_cases h2 : a.name ∈ seen <;>
        simp [h1, h2]

theorem firstOccurrences_sublist (l : List Glyph) : firstOccurrences l <+ l := by
  induction l using firstOccurrences.induct with
  | case1 => simp [firstOccurrences]
  | case2 g rest ih =>
    rw [firstOccurrences]
    exact List.cons_sublist_cons.mpr (ih.trans (List.filter_sublist _))

theorem firstOccurrences_nodup (l : List Glyph) :
    ((firstOccurrences l).map Glyph.name).Nodup := by
  induction l using firstOccurrences.induct with
  | case1 => simp [firstOccurrences]
  | case2 g rest ih =>
    rw [firstOccurrences]
    simp only [List.map_cons]
    rw [List.nodup_cons]
    refine ⟨?_, ih⟩
    intro hmem
    rcases List.mem_map.mp hmem with ⟨x, hx, hname⟩
    have hx' := (firstOccurrences_sublist _).subset hx
    have hne := (List.mem_filter.mp hx').2
    simp only [decide_eq_true_eq] at hne
    exact hne hname

theorem addIdx_mem (is : List Nat) (i : Nat) : i ∈ addIdx is i := by
  unfold addIdx
  split
  · assumption
  · simp

theorem addIdx_of_mem {is : List Nat} {i : Nat} (h : i ∈ is) : addIdx is i = is := by
  simp [addIdx, h]

theorem addIdx_nodup {is : List Nat} {i : Nat} (h : is.Nodup) :
    (addIdx is i).Nodup := by
  unfold addIdx
  split
  · exact h
  · rename_i hni
    simpa [List.nodup_append] using ⟨h, fun hmem => hni hmem⟩

theorem lookupChild_setChild (cs : List (Char × Trie)) (c : Char) (t : Trie) :
    lookupChild (setChild cs c t) c = some t := by
  induction cs with
  | nil => simp [setChild, lookupChild]
  | cons p rest ih =>
    obtain ⟨d, u⟩ := p
    by_cases h : d = c
    · simp [setChild, h, lookupChild]
    · simp [setChild, h, lookupChild, ih]

theorem setChild_setChild (cs : List (Char × Trie)) (c : Char) (t u : Trie) :
    setChild (setChild cs c t) c u = setChild cs c u := by
  induction cs with
  | nil => simp [setChild]
  | cons p rest ih =>
    obtain ⟨d, v⟩ := p
    by_cases h : d = c
    · simp [setChild, h]
    · simp [setChild, h, ih]

theorem mem_setChild {cs : List (Char × Trie)} {c : Char} {t : Trie} {p : Char × Trie}
    (h : p ∈ setChild cs c t) : p = (c, t) ∨ p ∈ cs := by
  induction cs with
  | nil => simpa [setChild] using h
  | cons q rest ih =>
    obtain ⟨d, v⟩ := q
    by_cases hd : d = c
    · rw [setChild] at h
      rw [if_pos hd] at h
      rcases List.mem_cons.mp h with h | h
      · exact Or.inl h
      · exact Or.inr (List.mem_cons_of_mem _ h)
    · rw [setChild] at h
      rw [if_neg hd] at h
      rcases List.mem_cons.mp h with h | h
      · exact Or.inr (h ▸ List.mem_cons_self _ _)
      · rcases ih h with h | h
        · exact Or.inl h
        · exact Or.inr (List.mem_cons_of_mem _ h)

theorem lookupChild_mem {cs : List (Char × Trie)} {c : Char} {u : Trie}
    (h : lookupChild cs c = some u) : (c, u) ∈ cs := by
  induction cs with
  | nil => simp [lookupChild] at h
  | cons q rest ih =>
    obtain ⟨d, v⟩ := q
    by_cases hd : d = c
    · rw [lookupChild, if_pos hd] at h
      cases h
      exact hd ▸ List.mem_cons_self _ _
    · rw [lookupChild, if_neg hd] at h
      exact List.mem_cons_of_mem _ (ih h)

theorem bump_indices (t : Trie) (i : Nat) :
    (bump t i).indices = addIdx t.indices i := by
  cases t; rfl

theorem bump_of_mem {t : Trie} {i : Nat} (h : i ∈ t.indices) : bump t i = t := by
  cases t with
  | mk cs is =>
    simp only [Trie.indices] at h
    simp only [bump]
    rw [addIdx_of_mem h]

theorem insertTrie_indices (t : Trie) (s : List Char) (i : Nat) :
    (insertTrie t s i).indices = t.indices := by
  cases s with
  | nil => cases t; rfl
  | cons c rest => cases t; rfl

/-- Inserting the same string/index pair twice is the same as inserting it
once. -/
theorem insertTrie_idem (s : List Char) :
    ∀ (t : Trie) (i : Nat), insertTrie (insertTrie t s i) s i = insertTrie t s i := by
  induction s with
  | nil => intro t i; cases t; rfl
  | cons c rest ih =>
    intro t i
    cases t with
    | mk cs is =>
      show Trie.mk (setChild (setChild cs c _) c
        (insertTrie (bump ((lookupChild (setChild cs c _) c).getD emptyTrie) i) rest i)) is = _
      rw [lookupChild_setChild]
      simp only [Option.getD_some]
      have hidx : i ∈ (insertTrie (bump ((lookupChild cs c).getD emptyTrie) i) rest i).indices := by
        rw [insertTrie_indices, bump_indices]
        exact addIdx_mem _ _
      rw [bump_of_mem hidx, ih, setChild_setChild]
      rfl

theorem trieNodup_empty : TrieNodup emptyTrie := by
  exact TrieNodup.mk [] [] List.nodup_nil (by intro p hp; simp at hp)

theorem bump_nodup {t : Trie} {i : Nat} (h : TrieNodup t) : TrieNodup (bump t i) := by
  cases t with
  | mk cs is =>
    cases h with
    | mk _ _ hnd hch => exact TrieNodup.mk _ _ (addIdx_nodup hnd) hch

theorem trieNodup_insert (s : List Char) :
    ∀ (t : Trie) (i : Nat), TrieNodup t → TrieNodup (insertTrie t s i) := by
  induction s with
  | nil => intro t i h; cases t; exact h
  | cons c rest ih =>
    intro t i h
    cases t with
    | mk cs is =>
      cases h with
      | mk _ _ hnd hch =>
        refine TrieNodup.mk _ _ hnd ?_
        intro p hp
        rcases mem_setChild hp with hpe | hpm
        · subst hpe
          apply ih
          apply bump_nodup
          cases hL : lookupChild cs c with
          | none => simpa [hL] using trieNodup_empty
          | some u => simpa [hL] using hch (c, u) (lookupChild_mem hL)
        · exact hch p hpm

/-- After any sequence of insertions into the empty trie, every node's index
list is duplicate-free. -/
theorem trieNodup_foldl (ops : List (List Char × Nat)) :
    ∀ t, TrieNodup t →
      TrieNodup (ops.foldl (fun t p => insertTrie t p.1 p.2) t) := by
  induction ops with
  | nil => intro t h; exact h
  | cons p rest ih =>
    intro t h
    exact ih _ (trieNodup_insert p.1 t p.2 h)

theorem searchTrie_empty (q : List Char) : searchTrie emptyTrie q = [] := by
  cases q with
  | nil => rfl
  | cons c rest => rfl

/-- Search over an index built from no glyphs yields no results, whatever the
query. -/
theorem searchGlyphs_buildIndex_nil (q : List Char) :
    searchGlyphs (buildIndex []) q = [] := by
  have hb : buildIndex [] = ⟨[], [], emptyTrie⟩ := rfl
  rw [hb]
  unfold searchGlyphs
  dsimp only
  split_ifs with h1 h2 h3
  · rfl
  · rfl
  · rw [searchTrie_empty]
    rfl
  · rw [searchTrie_empty]
    rfl

theorem goTrimSpace_eq_nil {term : List Char} (h : ∀ c ∈ term, goIsSpace c = true) :
    goTrimSpace term = [] := by
  unfold goTrimSpace
  rw [List.dropWhile_eq_nil_iff.mpr h]
  rfl

theorem getGlyphs_ws (allGlyphs : List Glyph) {term : List Char}
    (h : ∀ c ∈ term, goIsSpace c = true) :
    getGlyphs allGlyphs term = allGlyphs := by
  unfold getGlyphs
  rw [if_pos (goTrimSpace_eq_nil h)]

theorem searchGlyphs_ws (idx : SearchIndex) {term : List Char}
    (h : ∀ c ∈ term, goIsSpace c = true) :
    searchGlyphs idx term = idx.glyphs := by
  unfold searchGlyphs
  rw [if_pos (goTrimSpace_eq_nil h)]

/-! ### Claim theorems -/

/-- C1: for a non-empty query that is not a case-folded substring of the
name, the matcher reports a match exactly when every query rune appears in
the name in the same relative order (ordered subsequence), and reports
isMatch false with score 0 when some query rune cannot be matched before the
name is exhausted. -/
theorem claim1_fuzzy_iff_subseq (q t : List Char) (hq : lowerL q ≠ [])
    (hnc : containsL (lowerL t) (lowerL q) = false) :
    ((fuzzyMatch q t).2 = true ↔ lowerL q <+ lowerL t) ∧
    (¬ lowerL q <+ lowerL t → fuzzyMatch q t = (0, false)) := by
  have hmm := fuzzyMatch_fuzzy_eq q t hq hnc
  rw [hmm]
  by_cases hr : (fuzzyLoop (lowerL t) (lowerL q) none 0 0).2 = []
  · rw [if_pos hr]
    have hs := (fuzzyLoop_done_iff (lowerL t) (lowerL q) none 0 0).mp hr
    exact ⟨by simp [hs], fun hns => absurd hs hns⟩
  · rw [if_neg hr]
    have hns : ¬ lowerL q <+ lowerL t :=
      fun hs => hr ((fuzzyLoop_done_iff _ _ none 0 0).mpr hs)
    exact ⟨by simp [hns], fun _ => rfl⟩

/-- C1 witness: the hypotheses hold and the conclusion applies at the
spec's own example pair, and the companion example matches. -/
theorem claim1_witness :
    (lowerL (cl "ca") ≠ [] ∧
      containsL (lowerL (cl "abc")) (lowerL (cl "ca")) = false ∧
      fuzzyMatch (cl "ca") (cl "abc") = (0, false)) ∧
    (fuzzyMatch (cl "ac") (cl "abc")).2 = true := by
  refine ⟨⟨by decide, by decide, ?_⟩, by decide⟩
  exact (claim1_fuzzy_iff_subseq (cl "ca") (cl "abc") (by decide) (by decide)).2
    (by decide)

/-- C2 counterexample: the 40-rune query of all a-runes matched fuzzily
against a name with the run broken near the end scores 1571, strictly above
the exact self-match score 1500 — an exact match does not outrank every
other outcome. -/
theorem claim2_counterexample :
    (fuzzyMatch (List.replicate 40 'a') (List.replicate 40 'a')).2 = true ∧
    (fuzzyMatch (List.replicate 40 'a') (List.replicate 39 'a' ++ ['b', 'a'])).2 = true ∧
    (fuzzyMatch (List.replicate 40 'a') (List.replicate 40 'a')).1 <
      (fuzzyMatch (List.replicate 40 'a') (List.replicate 39 'a' ++ ['b', 'a'])).1 := by
  decide

/-- C2 amended: a self-match always matches (unconditionally), and when the
case-folded query has at most 33 runes no other candidate scores above the
exact match. -/
theorem claim2_amended (name name' : List Char) :
    (fuzzyMatch name name).2 = true ∧
    ((lowerL name).length ≤ 33 →
      (fuzzyMatch name name').1 ≤ (fuzzyMatch name name).1) := by
  constructor
  · rw [fuzzyMatch_self name]
  · intro h33
    by_cases h : lowerL name = []
    · have hLHS : fuzzyMatch name name' = (0, true) := by
        unfold fuzzyMatch
        dsimp only
        rw [if_pos h]
      rw [hLHS, fuzzyMatch_self name, if_pos h]
    · rw [fuzzyMatch_self name, if_neg h]
      simpa using fuzzyMatch_fst_le name name' h33

/-- C2 amended witness: concrete instantiation at a short name. -/
theorem claim2_witness :
    (fuzzyMatch (cl "ab") (cl "ab")).2 = true ∧
    ((lowerL (cl "ab")).length ≤ 33 ∧
      (fuzzyMatch (cl "ab") (cl "zzz")).1 ≤ (fuzzyMatch (cl "ab") (cl "ab")).1) := by
  refine ⟨(claim2_amended (cl "ab") (cl "zzz")).1, by decide, ?_⟩
  exact (claim2_amended (cl "ab") (cl "zzz")).2 (by decide)

/-- C4 counterexample: the query cod is a substring of both names, so both
take the substring rule and score exactly 989 — the claimed strict
inequality fails. -/
theorem claim4_counterexample :
    fuzzyMatch (cl "cod") (cl "nf-cod-account") = (989, true) ∧
    fuzzyMatch (cl "cod") (cl "nfxcodxaccount") = (989, true) ∧
    ¬ ((fuzzyMatch (cl "cod") (cl "nf-cod-account")).1 >
        (fuzzyMatch (cl "cod") (cl "nfxcodxaccount")).1) := by
  decide

/-- C4 amended: both cod scores are equal (both names contain cod, so the
word-boundary bonus never fires); the bonus belongs to the fuzzy path, where
the query coa (a substring of neither name) scores strictly higher on the
separator-bearing name. -/
theorem claim4_amended :
    (fuzzyMatch (cl "cod") (cl "nf-cod-account")).1 =
      (fuzzyMatch (cl "cod") (cl "nfxcodxaccount")).1 ∧
    containsL (lowerL (cl "nf-cod-account")) (lowerL (cl "cod")) = true ∧
    containsL (lowerL (cl "nfxcodxaccount")) (lowerL (cl "cod")) = true ∧
    containsL (lowerL (cl "nf-cod-account")) (lowerL (cl "coa")) = false ∧
    containsL (lowerL (cl "nfxcodxaccount")) (lowerL (cl "coa")) = false ∧
    (fuzzyMatch (cl "coa") (cl "nf-cod-account")).1 >
      (fuzzyMatch (cl "coa") (cl "nfxcodxaccount")).1 := by
  decide

/-- C6: the empty query matches every name with score exactly 0. -/
theorem claim6_empty_query (name : List Char) : fuzzyMatch [] name = (0, true) := rfl

/-- C7: searching over an index built from an empty candidate collection
returns the empty list for every query (and, being a total function, never
errors). -/
theorem claim7_empty_candidates (query : List Char) :
    searchGlyphs (buildIndex []) query = [] :=
  searchGlyphs_buildIndex_nil query

/-- C8: after index construction or reload, the working set is the
keep-first-occurrence subsequence of the raw input — names are pairwise
distinct, and the set is a subsequence of the input. -/
theorem claim8_dedup_first_occurrence (raw : List Glyph) :
    (buildIndex raw).glyphs = firstOccurrences raw ∧
    ((buildIndex raw).glyphs.map Glyph.name).Nodup ∧
    (buildIndex raw).glyphs <+ raw := by
  have hg : (buildIndex raw).glyphs = dedupGlyphs [] raw := rfl
  have he : dedupGlyphs [] raw = firstOccurrences raw := by
    rw [dedupGlyphs_eq]
    congr 1
    apply List.filter_eq_self.mpr
    intro a _
    simp
  rw [hg, he]
  exact ⟨rfl, firstOccurrences_nodup raw, firstOccurrences_sublist raw⟩

/-- C9: trie insertion is idempotent per string/index pair, and any sequence
of insertions into the empty trie leaves every node's index list free of
duplicates. -/
theorem claim9_trie_idempotent (s : List Char) (i : Nat) (t : Trie)
    (ops : List (List Char × Nat)) :
    insertTrie (insertTrie t s i) s i = insertTrie t s i ∧
    TrieNodup (ops.foldl (fun t p => insertTrie t p.1 p.2) emptyTrie) :=
  ⟨insertTrie_idem s t i, trieNodup_foldl ops emptyTrie trieNodup_empty⟩

/-- C10: a whitespace-only search term short-circuits both public entry
points to the unfiltered candidate list, while the matcher itself does not
give a whitespace pattern the empty-query treatment (shown at the pattern
of one space against the name ab). -/
theorem claim10_whitespace_query (allGlyphs : List Glyph) (idx : SearchIndex)
    (term : List Char) (hsp : ∀ c ∈ term, goIsSpace c = true) :
    getGlyphs allGlyphs term = allGlyphs ∧
    searchGlyphs idx term = idx.glyphs ∧
    fuzzyMatch (cl " ") (cl "ab") = (0, false) :=
  ⟨getGlyphs_ws allGlyphs hsp, searchGlyphs_ws idx hsp, by decide⟩

/-- C10 witness: concrete instantiation at a one-space term and a one-glyph
index. -/
theorem claim10_witness :
    getGlyphs [⟨cl "ab", cl "x"⟩] (cl " ") = [⟨cl "ab", cl "x"⟩] ∧
    searchGlyphs (buildIndex [⟨cl "ab", cl "x"⟩]) (cl " ") =
      (buildIndex [⟨cl "ab", cl "x"⟩]).glyphs ∧
    fuzzyMatch (cl " ") (cl "ab") = (0, false) :=
  claim10_whitespace_query [⟨cl "ab", cl "x"⟩] (buildIndex [⟨cl "ab", cl "x"⟩])
    (cl " ") (by decide)

end Gylte
